import Mathlib

/-
  Verification of the LoG (Laplacian of Gaussian) kernel generator.

  The development shallowly embeds the Python source `laplacian_of_gaussian.py`
  over the real numbers ℝ.  Two embeddings are given:

  * a total embedding (`gaussian`, `laplacian`, `laplacian_of_gaussian_kernel`)
    using Lean's total division, adequate for value claims whose hypotheses
    exclude all zero denominators; and
  * a fallible embedding (`gaussianE`, `laplacianE`,
    `laplacian_of_gaussian_kernelE`) in the Option monad, where every Python
    division is `pydiv`, which fails on a zero denominator exactly as Python
    raises ZeroDivisionError.  This embedding settles the error-behaviour
    claims.

  Python's `a / b` on numbers is exact-real division here; `m.e ** t` is
  `Real.exp 1 ^ t` (real rpow) and `b ** (1/2)` is `b ^ ((1:ℝ)/2)` (real rpow),
  kept in the source's own form rather than pre-simplified.
-/

open scoped Classical

/-- Source `gaussian(x, y, s, u1, u2)`:
`output = m.e**(-((x-u1)**2 + (y-u2)**2)/(2*(s**2)))` then
`output /= ((2*m.pi)**2 * (s**4))**(1/2)`. -/
noncomputable def gaussian (x y s u1 u2 : ℝ) : ℝ :=
  (Real.exp 1 ^ (-((x - u1) ^ 2 + (y - u2) ^ 2) / (2 * s ^ 2))) /
    ((2 * Real.pi) ^ 2 * s ^ 4) ^ ((1 : ℝ) / 2)

/-- Source `laplacian(x, y, s, u1, u2)`: calls `gaussian`, multiplies by
`(((x-u1)**2) + ((y-u2)**2))/(s**2) - 2`, divides by `s**2`. -/
noncomputable def laplacian (x y s u1 u2 : ℝ) : ℝ :=
  (gaussian x y s u1 u2 * ((((x - u1) ^ 2) + ((y - u2) ^ 2)) / s ^ 2 - 2)) / s ^ 2

/-- The raw (unnormalized) kernel cell of `laplacian_of_gaussian_kernel` at row
`i`, column `j`: the source computes `y = -domain*(2*(i/(side_length-1)) - 1)`
and `x = domain*(2*(j/(side_length-1)) - 1)` and stores `laplacian(x, y, s, u1, u2)`. -/
noncomputable def rawCell (n : ℕ) (domain s u1 u2 : ℝ) (i j : ℕ) : ℝ :=
  laplacian (domain * (2 * ((j : ℝ) / ((n : ℝ) - 1)) - 1))
    (-domain * (2 * ((i : ℝ) / ((n : ℝ) - 1)) - 1)) s u1 u2

/-- The filled `side_length × side_length` list-of-lists of raw cells (the
source's `kernel` right after the sampling loops). -/
noncomputable def rawKernelList (n : ℕ) (domain s u1 u2 : ℝ) : List (List ℝ) :=
  (List.range n).map (fun i => (List.range n).map (fun j => rawCell n domain s u1 u2 i j))

/-- The running accumulator `mean` of the source just before `mean /= side_length**2`:
starts at `0` and adds each cell value in row-major loop order. -/
noncomputable def kernelSumAcc (n : ℕ) (domain s u1 u2 : ℝ) : ℝ :=
  (List.range n).foldl
    (fun acc i => (List.range n).foldl (fun acc2 j => acc2 + rawCell n domain s u1 u2 i j) acc) 0

/-- The source's `mean` after `mean /= side_length**2`. -/
noncomputable def kernelMean (n : ℕ) (domain s u1 u2 : ℝ) : ℝ :=
  kernelSumAcc n domain s u1 u2 / (n : ℝ) ^ 2

/-- The source's `max_value`: `max_value = 0` then
`max_value = max(max_value, abs(kernel[i][j]))` over all cells in loop order. -/
noncomputable def maxAbs (K : List (List ℝ)) : ℝ :=
  K.foldl (fun acc row => row.foldl (fun a v => max a |v|) acc) 0

/-- The source's `total`: `total = 0` then `total += abs(kernel[i][j])`
over all cells in loop order. -/
noncomputable def absSum (K : List (List ℝ)) : ℝ :=
  K.foldl (fun acc row => row.foldl (fun a v => a + |v|) acc) 0

/-- The kernel after the `zero_center` pass: `kernel[i][j] -= mean` on every
cell when the flag is set, otherwise unchanged. -/
noncomputable def centeredKernel (n : ℕ) (domain s u1 u2 : ℝ) (zero_center : Bool) :
    List (List ℝ) :=
  if zero_center then
    (rawKernelList n domain s u1 u2).map
      (List.map (fun v => v - kernelMean n domain s u1 u2))
  else rawKernelList n domain s u1 u2

/-- The `max_normalize` pass: `kernel[i][j] /= max_value` on every cell when the
flag is set, `max_value` being `maxAbs` of the incoming kernel. -/
noncomputable def maxNormalized (K : List (List ℝ)) (max_normalize : Bool) : List (List ℝ) :=
  if max_normalize then K.map (List.map (fun v => v / maxAbs K)) else K

/-- The `absolute_l1_normalize` pass: `kernel[i][j] /= total` on every cell when
the flag is set, `total` being `absSum` of the incoming kernel. -/
noncomputable def l1Normalized (K : List (List ℝ)) (absolute_l1_normalize : Bool) :
    List (List ℝ) :=
  if absolute_l1_normalize then K.map (List.map (fun v => v / absSum K)) else K

/-- Source `laplacian_of_gaussian_kernel`: sampling pass, then the three
normalization passes in the source's fixed order (zero-centering, then
max-normalization, then absolute-L1 normalization). -/
noncomputable def laplacian_of_gaussian_kernel (side_length : ℕ) (domain s u1 u2 : ℝ)
    (zero_center max_normalize absolute_l1_normalize : Bool) : List (List ℝ) :=
  l1Normalized
    (maxNormalized (centeredKernel side_length domain s u1 u2 zero_center) max_normalize)
    absolute_l1_normalize

/-- Cell access `kernel[i][j]` on a list-of-lists, with junk value 0 out of range. -/
noncomputable def cellOf (K : List (List ℝ)) (i j : ℕ) : ℝ := (K.getD i []).getD j 0

/-- The sum of all cells of a list-of-lists kernel. -/
noncomputable def cellSum (K : List (List ℝ)) : ℝ := (K.map List.sum).sum

/-- Python division: `a / b` raises ZeroDivisionError when `b = 0`, modelled as
`none`; otherwise real division. -/
noncomputable def pydiv (a b : ℝ) : Option ℝ :=
  if b = 0 then none else some (a / b)

/-- Fallible embedding of `gaussian`, each Python division through `pydiv`. -/
noncomputable def gaussianE (x y s u1 u2 : ℝ) : Option ℝ := do
  let e ← pydiv (-((x - u1) ^ 2 + (y - u2) ^ 2)) (2 * s ^ 2)
  pydiv (Real.exp 1 ^ e) (((2 * Real.pi) ^ 2 * s ^ 4) ^ ((1 : ℝ) / 2))

/-- Fallible embedding of `laplacian`, each Python division through `pydiv`. -/
noncomputable def laplacianE (x y s u1 u2 : ℝ) : Option ℝ := do
  let g ← gaussianE x y s u1 u2
  let t ← pydiv (((x - u1) ^ 2) + ((y - u2) ^ 2)) (s ^ 2)
  pydiv (g * (t - 2)) (s ^ 2)

/-- One sampling row of the fallible kernel builder: the source computes
`y = -domain*(2*(i/(side_length-1)) - 1)` once per row, then for each column
`x = domain*(2*(j/(side_length-1)) - 1)` and the laplacian value. -/
noncomputable def rawRowE (n : ℕ) (domain s u1 u2 : ℝ) (i : ℕ) : Option (List ℝ) := do
  let ti ← pydiv (i : ℝ) ((n : ℝ) - 1)
  let y := -domain * (2 * ti - 1)
  (List.range n).mapM (fun j => do
    let tj ← pydiv (j : ℝ) ((n : ℝ) - 1)
    laplacianE (domain * (2 * tj - 1)) y s u1 u2)

/-- Fallible embedding of `laplacian_of_gaussian_kernel`: sampling rows, the
`mean /= side_length**2` division, then the three normalization passes, every
division through `pydiv` so a zero denominator aborts exactly where Python
raises ZeroDivisionError. -/
noncomputable def laplacian_of_gaussian_kernelE (side_length : ℕ) (domain s u1 u2 : ℝ)
    (zero_center max_normalize absolute_l1_normalize : Bool) : Option (List (List ℝ)) := do
  let raw ← (List.range side_length).mapM (rawRowE side_length domain s u1 u2)
  let mean ← pydiv (cellSum raw) ((side_length : ℝ) ^ 2)
  let k1 := if zero_center then raw.map (List.map (fun v => v - mean)) else raw
  let k2 ← if max_normalize then
      k1.mapM (fun row => row.mapM (fun v => pydiv v (maxAbs k1)))
    else some k1
  let k3 ← if absolute_l1_normalize then
      k2.mapM (fun row => row.mapM (fun v => pydiv v (absSum k2)))
    else some k2
  return k3

/-- The minimum-tracking step of `find_reference`: the source keeps
`(min_diff, values/new_kernel)` and replaces it by the candidate's data exactly
when `current_diff < min_diff` (strict less-than). -/
noncomputable def findRefStep (f : ℕ × ℕ → ℝ) (st : ℝ × Option (ℕ × ℕ)) (c : ℕ × ℕ) :
    ℝ × Option (ℕ × ℕ) :=
  if f c < st.1 then (f c, some c) else st

/-- The candidate grid of `find_reference`, iterated rows-then-columns in
ascending order (`for i in range(search): for j in range(search):`). -/
def searchPairs (search : ℕ) : List (ℕ × ℕ) :=
  (List.range search).flatMap (fun i => (List.range search).map (fun j => (i, j)))

/-- The score `current_diff` of candidate `(i, j)` in `find_reference`:
`abs(0.066 - kernel[0][0]) + abs(0.184 - kernel[0][1]) + abs(1 + kernel[1][1])`
for the 3×3 zero-centered kernel at
`kernel_domain = 0.0001 + 4*(j/(search-1))`, `kernel_sigma = 0.0001 + 4*(i/(search-1))`. -/
noncomputable def refScore (search : ℕ) (c : ℕ × ℕ) : ℝ :=
  let kernel_domain := 0.0001 + 4 * ((c.2 : ℝ) / ((search : ℝ) - 1))
  let kernel_sigma := 0.0001 + 4 * ((c.1 : ℝ) / ((search : ℝ) - 1))
  let kernel := laplacian_of_gaussian_kernel 3 kernel_domain kernel_sigma 0 0 true false false
  |0.066 - cellOf kernel 0 0| + |0.184 - cellOf kernel 0 1| + |1 + cellOf kernel 1 1|

/-- The reduction performed by `find_reference`: fold the minimum-tracking step
over the candidate grid starting from `min_diff = 100000` and no candidate. -/
noncomputable def find_reference (search : ℕ) : ℝ × Option (ℕ × ℕ) :=
  (searchPairs search).foldl (findRefStep (refScore search)) (100000, none)

/-! Generic list-fold helpers for the accumulator loops of the source. -/

theorem sum_map_list_range (n : ℕ) (f : ℕ → ℝ) :
    ((List.range n).map f).sum = ∑ i ∈ Finset.range n, f i := by
  induction n with
  | zero => simp
  | succ k ih => simp [List.range_succ, Finset.sum_range_succ, ih]

theorem foldl_add_gen {α : Type} (f : α → ℝ) (l : List α) (a : ℝ) :
    l.foldl (fun acc x => acc + f x) a = a + (l.map f).sum := by
  induction l generalizing a with
  | nil => simp
  | cons x t ih => simp [ih, add_assoc]

theorem foldl_max_init_le (l : List ℝ) (a : ℝ) :
    a ≤ l.foldl (fun acc v => max acc |v|) a := by
  induction l generalizing a with
  | nil => simp
  | cons x t ih => exact le_trans (le_max_left a |x|) (ih (max a |x|))

theorem foldl_max_le_of_mem (l : List ℝ) (a v : ℝ) (hv : v ∈ l) :
    |v| ≤ l.foldl (fun acc v => max acc |v|) a := by
  induction l generalizing a with
  | nil => cases hv
  | cons x t ih =>
    rcases List.mem_cons.mp hv with h | h
    · subst h
      exact le_trans (le_max_right a |v|) (foldl_max_init_le t (max a |v|))
    · exact ih (max a |x|) h

theorem foldl_max_cases (l : List ℝ) (a : ℝ) :
    l.foldl (fun acc v => max acc |v|) a = a ∨
      ∃ v ∈ l, l.foldl (fun acc v => max acc |v|) a = |v| := by
  induction l generalizing a with
  | nil => exact Or.inl rfl
  | cons x t ih =>
    rcases ih (max a |x|) with h | ⟨v, hv, h⟩
    · rcases max_cases a |x| with ⟨hm, _⟩ | ⟨hm, _⟩
      · exact Or.inl (by simpa [hm] using h)
      · exact Or.inr ⟨x, List.mem_cons_self x t, by simpa [hm] using h⟩
    · exact Or.inr ⟨v, List.mem_cons_of_mem x hv, h⟩

theorem foldl_max_div (l : List ℝ) (m a : ℝ) (hm : 0 < m) :
    (l.map (fun v => v / m)).foldl (fun acc v => max acc |v|) (a / m) =
      (l.foldl (fun acc v => max acc |v|) a) / m := by
  induction l generalizing a with
  | nil => simp
  | cons x t ih =>
    have habs : |x / m| = |x| / m := by
      rw [abs_div, abs_of_pos hm]
    simp only [List.map_cons, List.foldl_cons, habs,
      max_div_div_right hm.le a |x|]
    exact ih (max a |x|)

theorem foldl_add_abs_div (l : List ℝ) (m a : ℝ) (hm : 0 < m) :
    (l.map (fun v => v / m)).foldl (fun acc v => acc + |v|) (a / m) =
      (l.foldl (fun acc v => acc + |v|) a) / m := by
  induction l generalizing a with
  | nil => simp
  | cons x t ih =>
    have habs : |x / m| = |x| / m := by
      rw [abs_div, abs_of_pos hm]
    simp only [List.map_cons, List.foldl_cons, habs, ← add_div]
    exact ih (a + |x|)

/-! Nested-fold characterizations of the aggregate quantities. -/

theorem maxAbs_foldl_init_le (K : List (List ℝ)) (a : ℝ) :
    a ≤ K.foldl (fun acc row => row.foldl (fun x v => max x |v|) acc) a := by
  induction K generalizing a with
  | nil => simp
  | cons row t ih =>
    exact le_trans (foldl_max_init_le row a) (ih _)

theorem maxAbs_nonneg (K : List (List ℝ)) : 0 ≤ maxAbs K :=
  maxAbs_foldl_init_le K 0

theorem maxAbs_foldl_le_of_mem (K : List (List ℝ)) (v : ℝ) (row : List ℝ) :
    row ∈ K → v ∈ row → ∀ a : ℝ,
      |v| ≤ K.foldl (fun acc row => row.foldl (fun x v => max x |v|) acc) a := by
  induction K with
  | nil => intro hrow; cases hrow
  | cons r t ih =>
    intro hrow hv a
    rcases List.mem_cons.mp hrow with h | h
    · subst h
      exact le_trans (foldl_max_le_of_mem row a v hv) (maxAbs_foldl_init_le t _)
    · exact ih h hv _

theorem maxAbs_le_of_mem (K : List (List ℝ)) (v : ℝ) (row : List ℝ)
    (hrow : row ∈ K) (hv : v ∈ row) : |v| ≤ maxAbs K :=
  maxAbs_foldl_le_of_mem K v row hrow hv 0

theorem maxAbs_foldl_cases (K : List (List ℝ)) (a : ℝ) :
    K.foldl (fun acc row => row.foldl (fun x v => max x |v|) acc) a = a ∨
      ∃ row ∈ K, ∃ v ∈ row,
        K.foldl (fun acc row => row.foldl (fun x v => max x |v|) acc) a = |v| := by
  induction K generalizing a with
  | nil => exact Or.inl rfl
  | cons r t ih =>
    rcases ih (r.foldl (fun x v => max x |v|) a) with h | ⟨row, hrow, v, hv, h⟩
    · rcases foldl_max_cases r a with h2 | ⟨v, hv, h2⟩
      · exact Or.inl (by rw [List.foldl_cons, h, h2])
      · exact Or.inr ⟨r, List.mem_cons_self r t, v, hv, by rw [List.foldl_cons, h, h2]⟩
    · exact Or.inr ⟨row, List.mem_cons_of_mem r hrow, v, hv, h⟩

theorem maxAbs_foldl_div (K : List (List ℝ)) (m a : ℝ) (hm : 0 < m) :
    (K.map (List.map (fun v => v / m))).foldl
        (fun acc row => row.foldl (fun x v => max x |v|) acc) (a / m) =
      (K.foldl (fun acc row => row.foldl (fun x v => max x |v|) acc) a) / m := by
  induction K generalizing a with
  | nil => simp
  | cons r t ih =>
    simp only [List.map_cons, List.foldl_cons, foldl_max_div r m a hm]
    exact ih _

theorem maxAbs_map_div (K : List (List ℝ)) (m : ℝ) (hm : 0 < m) :
    maxAbs (K.map (List.map (fun v => v / m))) = maxAbs K / m := by
  have h := maxAbs_foldl_div K m 0 hm
  rw [zero_div] at h
  unfold maxAbs
  exact h

theorem absSum_foldl_eq (K : List (List ℝ)) (a : ℝ) :
    K.foldl (fun acc row => row.foldl (fun x v => x + |v|) acc) a =
      a + (K.map (fun row => (row.map (fun v => |v|)).sum)).sum := by
  induction K generalizing a with
  | nil => simp
  | cons r t ih =>
    simp only [List.foldl_cons, List.map_cons, List.sum_cons]
    rw [ih, foldl_add_gen (fun v => |v|) r a, add_assoc]

theorem absSum_eq (K : List (List ℝ)) :
    absSum K = (K.map (fun row => (row.map (fun v => |v|)).sum)).sum := by
  unfold absSum
  rw [absSum_foldl_eq, zero_add]

theorem absSum_nonneg (K : List (List ℝ)) : 0 ≤ absSum K := by
  rw [absSum_eq]
  refine List.sum_nonneg ?_
  intro x hx
  rcases List.mem_map.mp hx with ⟨row, _, rfl⟩
  refine List.sum_nonneg ?_
  intro y hy
  rcases List.mem_map.mp hy with ⟨v, _, rfl⟩
  exact abs_nonneg v

theorem absSum_foldl_div (K : List (List ℝ)) (m a : ℝ) (hm : 0 < m) :
    (K.map (List.map (fun v => v / m))).foldl
        (fun acc row => row.foldl (fun x v => x + |v|) acc) (a / m) =
      (K.foldl (fun acc row => row.foldl (fun x v => x + |v|) acc) a) / m := by
  induction K generalizing a with
  | nil => simp
  | cons r t ih =>
    simp only [List.map_cons, List.foldl_cons, foldl_add_abs_div r m a hm]
    exact ih _

theorem absSum_map_div (K : List (List ℝ)) (m : ℝ) (hm : 0 < m) :
    absSum (K.map (List.map (fun v => v / m))) = absSum K / m := by
  have h := absSum_foldl_div K m 0 hm
  rw [zero_div] at h
  unfold absSum
  exact h

/-! Grid view of the kernel: every pass maps one function over all cells, so
each intermediate kernel is a row/column-indexed grid of a cell function. -/

/-- An `n × n` list-of-lists whose cell `(i, j)` holds `g i j`. -/
noncomputable def gridOf (n : ℕ) (g : ℕ → ℕ → ℝ) : List (List ℝ) :=
  (List.range n).map (fun i => (List.range n).map (fun j => g i j))

theorem rawKernelList_eq_grid (n : ℕ) (domain s u1 u2 : ℝ) :
    rawKernelList n domain s u1 u2 = gridOf n (rawCell n domain s u1 u2) := rfl

theorem grid_map (n : ℕ) (g : ℕ → ℕ → ℝ) (f : ℝ → ℝ) :
    (gridOf n g).map (List.map f) = gridOf n (fun i j => f (g i j)) := by
  unfold gridOf
  simp [List.map_map, Function.comp]

theorem grid_length (n : ℕ) (g : ℕ → ℕ → ℝ) : (gridOf n g).length = n := by
  simp [gridOf]

theorem grid_row (n : ℕ) (g : ℕ → ℕ → ℝ) (i : ℕ) (hi : i < n) :
    (gridOf n g).getD i [] = (List.range n).map (fun j => g i j) := by
  simp [gridOf, List.getD_eq_getElem?_getD, List.getElem?_map, List.getElem?_range hi]

theorem grid_row_length (n : ℕ) (g : ℕ → ℕ → ℝ) (row : List ℝ)
    (hrow : row ∈ gridOf n g) : row.length = n := by
  rcases List.mem_map.mp hrow with ⟨i, _, rfl⟩
  simp

theorem cellOf_grid (n : ℕ) (g : ℕ → ℕ → ℝ) (i j : ℕ) (hi : i < n) (hj : j < n) :
    cellOf (gridOf n g) i j = g i j := by
  unfold cellOf
  rw [grid_row n g i hi]
  simp [List.getD_eq_getElem?_getD, List.getElem?_map, List.getElem?_range hj]

theorem cellSum_grid (n : ℕ) (g : ℕ → ℕ → ℝ) :
    cellSum (gridOf n g) = ∑ i ∈ Finset.range n, ∑ j ∈ Finset.range n, g i j := by
  unfold cellSum gridOf
  rw [List.map_map]
  have h : (List.sum ∘ fun i => (List.range n).map (fun j => g i j)) =
      fun i => ∑ j ∈ Finset.range n, g i j := by
    funext i
    exact sum_map_list_range n (g i)
  rw [h, sum_map_list_range n (fun i => ∑ j ∈ Finset.range n, g i j)]

/-- The accumulated sum of the sampling loops equals the double sum of all
raw cells. -/
theorem kernelSumAcc_eq_sum (n : ℕ) (domain s u1 u2 : ℝ) :
    kernelSumAcc n domain s u1 u2 =
      ∑ i ∈ Finset.range n, ∑ j ∈ Finset.range n, rawCell n domain s u1 u2 i j := by
  unfold kernelSumAcc
  have hinner : ∀ (a : ℝ) (i : ℕ),
      (List.range n).foldl (fun acc2 j => acc2 + rawCell n domain s u1 u2 i j) a =
        a + ∑ j ∈ Finset.range n, rawCell n domain s u1 u2 i j := by
    intro a i
    rw [foldl_add_gen (rawCell n domain s u1 u2 i) (List.range n) a,
      sum_map_list_range n (rawCell n domain s u1 u2 i)]
  rw [List.foldl_ext _ (fun acc i => acc + ∑ j ∈ Finset.range n, rawCell n domain s u1 u2 i j)
    0 (fun a i _ => hinner a i)]
  rw [foldl_add_gen (fun i => ∑ j ∈ Finset.range n, rawCell n domain s u1 u2 i j)
    (List.range n) 0, zero_add,
    sum_map_list_range n (fun i => ∑ j ∈ Finset.range n, rawCell n domain s u1 u2 i j)]

/-- The intermediate kernel after the zero-centering pass, as a grid. -/
theorem centeredKernel_eq_grid (n : ℕ) (domain s u1 u2 : ℝ) (zc : Bool) :
    centeredKernel n domain s u1 u2 zc =
      gridOf n (fun i j =>
        if zc then rawCell n domain s u1 u2 i j - kernelMean n domain s u1 u2
        else rawCell n domain s u1 u2 i j) := by
  cases zc with
  | false => simp [centeredKernel, rawKernelList_eq_grid]
  | true => simp [centeredKernel, rawKernelList_eq_grid, grid_map]

/-- The full kernel builder, as an `n × n` grid: each cell is the raw laplacian
sample pushed through the selected normalization passes, whose divisors and
subtrahend are cell-independent aggregates. -/
theorem kernel_eq_grid (n : ℕ) (d s u1 u2 : ℝ) (zc mn l1 : Bool) :
    laplacian_of_gaussian_kernel n d s u1 u2 zc mn l1 =
      gridOf n (fun i j =>
        let v1 := if zc then rawCell n d s u1 u2 i j - kernelMean n d s u1 u2
                  else rawCell n d s u1 u2 i j
        let v2 := if mn then v1 / maxAbs (centeredKernel n d s u1 u2 zc) else v1
        if l1 then v2 / absSum (maxNormalized (centeredKernel n d s u1 u2 zc) mn) else v2) := by
  cases zc <;> cases mn <;> cases l1 <;>
    simp [laplacian_of_gaussian_kernel, l1Normalized, maxNormalized, centeredKernel_eq_grid,
      grid_map]

/-- C2: for every `x`, `y`, `u1`, `u2` and every `s ≠ 0`, `gaussian` returns
`exp(-((x-u1)² + (y-u2)²) / (2 s²)) / sqrt((2π)² s⁴)`; being a Lean function of
its arguments it has no side effects. -/
theorem gaussian_closed_form (x y s u1 u2 : ℝ) (hs : s ≠ 0) :
    gaussian x y s u1 u2 =
      Real.exp (-((x - u1) ^ 2 + (y - u2) ^ 2) / (2 * s ^ 2)) /
        Real.sqrt ((2 * Real.pi) ^ 2 * s ^ 4) := by
  unfold gaussian
  rw [Real.exp_one_rpow, Real.sqrt_eq_rpow]

/-- Witness for C2 at `x = y = u1 = u2 = 0`, `s = 1`. -/
theorem gaussian_closed_form_witness :
    gaussian 0 0 1 0 0 =
      Real.exp (-((0 - 0) ^ 2 + (0 - 0) ^ 2) / (2 * 1 ^ 2)) /
        Real.sqrt ((2 * Real.pi) ^ 2 * 1 ^ 4) :=
  gaussian_closed_form 0 0 1 0 0 (by norm_num)

/-- C3: for every `x`, `y`, `u1`, `u2` and every `s ≠ 0`, `laplacian` equals the
Gaussian evaluator's value multiplied by `((x-u1)² + (y-u2)²)/s² - 2` and
divided by `s²`; it is built by calling `gaussian` (visible in the definition of
`laplacian`) and has no side effects. -/
theorem laplacian_closed_form (x y s u1 u2 : ℝ) (hs : s ≠ 0) :
    laplacian x y s u1 u2 =
      gaussian x y s u1 u2 * (((x - u1) ^ 2 + (y - u2) ^ 2) / s ^ 2 - 2) / s ^ 2 := rfl

/-- Witness for C3 at `x = 1`, `y = 2`, `u1 = u2 = 0`, `s = 1`. -/
theorem laplacian_closed_form_witness :
    laplacian 1 2 1 0 0 =
      gaussian 1 2 1 0 0 * (((1 - 0) ^ 2 + (2 - 0) ^ 2) / 1 ^ 2 - 2) / 1 ^ 2 :=
  laplacian_closed_form 1 2 1 0 0 (by norm_num)

/-- C1: before any normalization pass (all three flags false), the kernel is a
`side_length × side_length` array whose cell `(i, j)` is the laplacian value at
`x = domain·(2·(j/(side_length-1)) - 1)`, `y = -domain·(2·(i/(side_length-1)) - 1)`
(the y mapping sign-inverted relative to x), and the accumulated mean equals the
arithmetic mean (double sum divided by `side_length²`) of all raw cells. -/
theorem log_kernel_raw (n : ℕ) (domain s u1 u2 : ℝ) (hn : 2 ≤ n) (hs : s ≠ 0) :
    (laplacian_of_gaussian_kernel n domain s u1 u2 false false false).length = n ∧
    (∀ row ∈ laplacian_of_gaussian_kernel n domain s u1 u2 false false false,
      row.length = n) ∧
    (∀ i j : ℕ, i < n → j < n →
      cellOf (laplacian_of_gaussian_kernel n domain s u1 u2 false false false) i j =
        laplacian (domain * (2 * ((j : ℝ) / ((n : ℝ) - 1)) - 1))
          (-domain * (2 * ((i : ℝ) / ((n : ℝ) - 1)) - 1)) s u1 u2) ∧
    kernelMean n domain s u1 u2 =
      (∑ i ∈ Finset.range n, ∑ j ∈ Finset.range n, rawCell n domain s u1 u2 i j) /
        (n : ℝ) ^ 2 := by
  have hk : laplacian_of_gaussian_kernel n domain s u1 u2 false false false =
      gridOf n (rawCell n domain s u1 u2) := by
    rw [kernel_eq_grid]
    simp
  refine ⟨?_, ?_, ?_, ?_⟩
  · rw [hk]; exact grid_length n _
  · rw [hk]; exact fun row hrow => grid_row_length n _ row hrow
  · intro i j hi hj
    rw [hk, cellOf_grid n _ i j hi hj]
    rfl
  · unfold kernelMean
    rw [kernelSumAcc_eq_sum]

/-- Witness for C1 at `side_length = 2`, `domain = 1`, `s = 1`, `u1 = u2 = 0`. -/
theorem log_kernel_raw_witness :
    (laplacian_of_gaussian_kernel 2 1 1 0 0 false false false).length = 2 ∧
    (∀ row ∈ laplacian_of_gaussian_kernel 2 1 1 0 0 false false false,
      row.length = 2) ∧
    (∀ i j : ℕ, i < 2 → j < 2 →
      cellOf (laplacian_of_gaussian_kernel 2 1 1 0 0 false false false) i j =
        laplacian (1 * (2 * ((j : ℝ) / ((2 : ℝ) - 1)) - 1))
          (-1 * (2 * ((i : ℝ) / ((2 : ℝ) - 1)) - 1)) 1 0 0) ∧
    kernelMean 2 1 1 0 0 =
      (∑ i ∈ Finset.range 2, ∑ j ∈ Finset.range 2, rawCell 2 1 1 0 0 i j) / (2 : ℝ) ^ 2 := by
  have h := log_kernel_raw 2 1 1 0 0 (by norm_num) (by norm_num)
  exact_mod_cast h

/-! Radial symmetry of the sampled field for centered means (`u1 = u2 = 0`). -/

theorem gaussian_radial (x y x2 y2 s : ℝ) (h : x ^ 2 + y ^ 2 = x2 ^ 2 + y2 ^ 2) :
    gaussian x y s 0 0 = gaussian x2 y2 s 0 0 := by
  unfold gaussian
  simp only [sub_zero]
  rw [h]

theorem laplacian_radial (x y x2 y2 s : ℝ) (h : x ^ 2 + y ^ 2 = x2 ^ 2 + y2 ^ 2) :
    laplacian x y s 0 0 = laplacian x2 y2 s 0 0 := by
  unfold laplacian
  simp only [sub_zero]
  rw [h, gaussian_radial x y x2 y2 s h]

/-- Reflecting the grid index about the centre negates the sampled coordinate. -/
theorem coordReflect (n : ℕ) (domain : ℝ) (j : ℕ) (hn : 2 ≤ n) (hj : j < n) :
    domain * (2 * (((n - 1 - j : ℕ) : ℝ) / ((n : ℝ) - 1)) - 1) =
      -(domain * (2 * ((j : ℝ) / ((n : ℝ) - 1)) - 1)) := by
  have hj' : j ≤ n - 1 := Nat.le_sub_one_of_lt hj
  have h1n : 1 ≤ n := le_trans (by norm_num) hn
  have h1 : ((n - 1 - j : ℕ) : ℝ) = (n : ℝ) - 1 - (j : ℝ) := by
    rw [Nat.cast_sub hj', Nat.cast_sub h1n]
    norm_num
  have hne : (n : ℝ) - 1 ≠ 0 := by
    have h2 : (2 : ℝ) ≤ (n : ℝ) := by exact_mod_cast hn
    linarith
  rw [h1]
  field_simp
  ring

theorem rawCell_transpose (n : ℕ) (d s : ℝ) (i j : ℕ) :
    rawCell n d s 0 0 i j = rawCell n d s 0 0 j i := by
  unfold rawCell
  apply laplacian_radial
  ring

theorem rawCell_rotate (n : ℕ) (d s : ℝ) (i j : ℕ) (hn : 2 ≤ n) (hi : i < n) (hj : j < n) :
    rawCell n d s 0 0 i j = rawCell n d s 0 0 (n - 1 - i) (n - 1 - j) := by
  unfold rawCell
  apply laplacian_radial
  have hy : -d * (2 * (((n - 1 - i : ℕ) : ℝ) / ((n : ℝ) - 1)) - 1) =
      -(d * (2 * (((n - 1 - i : ℕ) : ℝ) / ((n : ℝ) - 1)) - 1)) := by ring
  rw [hy, coordReflect n d j hn hj, coordReflect n d i hn hi]
  ring

/-- C8: for a centered mean (`u1 = u2 = 0`), the returned kernel has 180°
rotation symmetry (`K[i][j] = K[n-1-i][n-1-j]`) and transpose symmetry
(`K[i][j] = K[j][i]`), for any flag settings with nonzero normalization
divisors. -/
theorem kernel_symmetry (n : ℕ) (domain s : ℝ) (zc mn l1 : Bool) (hn : 2 ≤ n) (hs : s ≠ 0)
    (hmn : mn = true → maxAbs (centeredKernel n domain s 0 0 zc) ≠ 0)
    (hl1 : l1 = true → absSum (maxNormalized (centeredKernel n domain s 0 0 zc) mn) ≠ 0) :
    ∀ i j : ℕ, i < n → j < n →
      cellOf (laplacian_of_gaussian_kernel n domain s 0 0 zc mn l1) i j =
          cellOf (laplacian_of_gaussian_kernel n domain s 0 0 zc mn l1)
            (n - 1 - i) (n - 1 - j) ∧
      cellOf (laplacian_of_gaussian_kernel n domain s 0 0 zc mn l1) i j =
          cellOf (laplacian_of_gaussian_kernel n domain s 0 0 zc mn l1) j i := by
  intro i j hi hj
  have hb1 : n - 1 - i < n := by omega
  have hb2 : n - 1 - j < n := by omega
  rw [kernel_eq_grid, cellOf_grid n _ i j hi hj, cellOf_grid n _ (n - 1 - i) (n - 1 - j) hb1 hb2,
    cellOf_grid n _ j i hj hi]
  constructor
  · rw [rawCell_rotate n domain s i j hn hi hj]
  · rw [rawCell_transpose n domain s i j]

/-- Witness for C8 at `side_length = 2`, `domain = 1`, `s = 1`, all flags
false, at the cell `(0, 1)`. -/
theorem kernel_symmetry_witness :
    cellOf (laplacian_of_gaussian_kernel 2 1 1 0 0 false false false) 0 1 =
        cellOf (laplacian_of_gaussian_kernel 2 1 1 0 0 false false false)
          (2 - 1 - 0) (2 - 1 - 1) ∧
    cellOf (laplacian_of_gaussian_kernel 2 1 1 0 0 false false false) 0 1 =
        cellOf (laplacian_of_gaussian_kernel 2 1 1 0 0 false false false) 1 0 :=
  kernel_symmetry 2 1 1 false false false (by norm_num) (by norm_num)
    (by simp) (by simp) 0 1 (by norm_num) (by norm_num)

/-! Cell-sum behaviour of the passes. -/

theorem list_sum_div (l : List ℝ) (m : ℝ) :
    (l.map (fun v => v / m)).sum = l.sum / m := by
  induction l with
  | nil => simp
  | cons x t ih => simp [ih, add_div]

theorem cellSum_map_div (K : List (List ℝ)) (m : ℝ) :
    cellSum (K.map (List.map (fun v => v / m))) = cellSum K / m := by
  unfold cellSum
  rw [List.map_map]
  have h : (List.sum ∘ List.map fun v => v / m) = fun row : List ℝ => row.sum / m :=
    funext fun row => list_sum_div row m
  rw [h]
  have h2 : (K.map fun row : List ℝ => row.sum / m) =
      (K.map List.sum).map (fun x => x / m) := by
    rw [List.map_map]
    rfl
  rw [h2, list_sum_div]

/-- After the zero-centering pass the cells sum to exactly zero. -/
theorem cellSum_centered (n : ℕ) (d s u1 u2 : ℝ) (hn : 0 < n) :
    cellSum (centeredKernel n d s u1 u2 true) = 0 := by
  rw [centeredKernel_eq_grid, cellSum_grid]
  simp only [if_true]
  have hsum : ∑ i ∈ Finset.range n, ∑ j ∈ Finset.range n,
      (rawCell n d s u1 u2 i j - kernelMean n d s u1 u2) =
      (∑ i ∈ Finset.range n, ∑ j ∈ Finset.range n, rawCell n d s u1 u2 i j) -
        (n : ℝ) ^ 2 * kernelMean n d s u1 u2 := by
    simp [Finset.sum_sub_distrib, Finset.sum_const, Finset.card_range]
    ring
  rw [hsum]
  unfold kernelMean
  rw [kernelSumAcc_eq_sum]
  have hne : ((n : ℝ) ^ 2) ≠ 0 := by
    have : (n : ℝ) ≠ 0 := Nat.cast_ne_zero.mpr (by omega)
    positivity
  field_simp

/-- C4: with `zero_center` true the unnormalized mean is subtracted from every
cell, and the cells of the returned kernel sum to zero for any setting of the
other two flags (whose divisors are assumed nonzero). -/
theorem zero_center_spec (n : ℕ) (domain s u1 u2 : ℝ) (mn l1 : Bool) (hn : 2 ≤ n)
    (hs : s ≠ 0)
    (hmn : mn = true → maxAbs (centeredKernel n domain s u1 u2 true) ≠ 0)
    (hl1 : l1 = true →
      absSum (maxNormalized (centeredKernel n domain s u1 u2 true) mn) ≠ 0) :
    (∀ i j : ℕ, i < n → j < n →
      cellOf (centeredKernel n domain s u1 u2 true) i j =
        cellOf (rawKernelList n domain s u1 u2) i j - kernelMean n domain s u1 u2) ∧
    cellSum (laplacian_of_gaussian_kernel n domain s u1 u2 true mn l1) = 0 := by
  constructor
  · intro i j hi hj
    rw [centeredKernel_eq_grid, cellOf_grid n _ i j hi hj, rawKernelList_eq_grid,
      cellOf_grid n _ i j hi hj]
    simp
  · have hc : cellSum (centeredKernel n domain s u1 u2 true) = 0 :=
      cellSum_centered n domain s u1 u2 (by omega)
    unfold laplacian_of_gaussian_kernel
    cases mn <;> cases l1 <;>
      simp [l1Normalized, maxNormalized, cellSum_map_div, hc, zero_div, -List.map_map]

/-- Witness for C4 at `side_length = 2`, `domain = 1`, `s = 1`, `u1 = u2 = 0`,
with `max_normalize` and `absolute_l1_normalize` both false. -/
theorem zero_center_spec_witness :
    (∀ i j : ℕ, i < 2 → j < 2 →
      cellOf (centeredKernel 2 1 1 0 0 true) i j =
        cellOf (rawKernelList 2 1 1 0 0) i j - kernelMean 2 1 1 0 0) ∧
    cellSum (laplacian_of_gaussian_kernel 2 1 1 0 0 true false false) = 0 :=
  zero_center_spec 2 1 1 0 0 false false (by norm_num) (by norm_num) (by simp) (by simp)

/-- C5: with `absolute_l1_normalize` false and `max_normalize` true, every cell
of the returned kernel is the (optionally centered) cell divided by the maximum
absolute value, and — when that maximum is nonzero — the returned kernel's
maximum absolute cell value is exactly 1. -/
theorem max_normalize_spec (n : ℕ) (domain s u1 u2 : ℝ) (zc : Bool) (hn : 2 ≤ n)
    (hs : s ≠ 0) (hmax : maxAbs (centeredKernel n domain s u1 u2 zc) ≠ 0) :
    (∀ i j : ℕ, i < n → j < n →
      cellOf (laplacian_of_gaussian_kernel n domain s u1 u2 zc true false) i j =
        cellOf (centeredKernel n domain s u1 u2 zc) i j /
          maxAbs (centeredKernel n domain s u1 u2 zc)) ∧
    maxAbs (laplacian_of_gaussian_kernel n domain s u1 u2 zc true false) = 1 := by
  have hpos : 0 < maxAbs (centeredKernel n domain s u1 u2 zc) :=
    lt_of_le_of_ne (maxAbs_nonneg _) (Ne.symm hmax)
  have hker : laplacian_of_gaussian_kernel n domain s u1 u2 zc true false =
      (centeredKernel n domain s u1 u2 zc).map
        (List.map (fun v => v / maxAbs (centeredKernel n domain s u1 u2 zc))) := by
    unfold laplacian_of_gaussian_kernel
    simp [l1Normalized, maxNormalized]
  constructor
  · intro i j hi hj
    rw [hker, centeredKernel_eq_grid, grid_map,
      cellOf_grid n _ i j hi hj, cellOf_grid n _ i j hi hj]
  · rw [hker, maxAbs_map_div _ _ hpos, div_self hmax]

/-- C6: with `absolute_l1_normalize` true, every cell of the returned kernel is
the corresponding cell of the step-4/step-5 output divided by its total absolute
sum, and — when that sum is nonzero — the returned kernel's absolute cell values
sum to exactly 1; the pass operates on the output of the earlier passes in the
fixed order zero-center, then max-normalize, then L1-normalize. -/
theorem l1_normalize_spec (n : ℕ) (domain s u1 u2 : ℝ) (zc mn : Bool) (hn : 2 ≤ n)
    (hs : s ≠ 0)
    (htot : absSum (maxNormalized (centeredKernel n domain s u1 u2 zc) mn) ≠ 0) :
    (∀ i j : ℕ, i < n → j < n →
      cellOf (laplacian_of_gaussian_kernel n domain s u1 u2 zc mn true) i j =
        cellOf (maxNormalized (centeredKernel n domain s u1 u2 zc) mn) i j /
          absSum (maxNormalized (centeredKernel n domain s u1 u2 zc) mn)) ∧
    absSum (laplacian_of_gaussian_kernel n domain s u1 u2 zc mn true) = 1 := by
  have hpos : 0 < absSum (maxNormalized (centeredKernel n domain s u1 u2 zc) mn) :=
    lt_of_le_of_ne (absSum_nonneg _) (Ne.symm htot)
  have hK2 : maxNormalized (centeredKernel n domain s u1 u2 zc) mn =
      gridOf n (fun i j =>
        if mn then
          (if zc then rawCell n domain s u1 u2 i j - kernelMean n domain s u1 u2
           else rawCell n domain s u1 u2 i j) /
            maxAbs (centeredKernel n domain s u1 u2 zc)
        else
          (if zc then rawCell n domain s u1 u2 i j - kernelMean n domain s u1 u2
           else rawCell n domain s u1 u2 i j)) := by
    cases mn <;> simp [maxNormalized, centeredKernel_eq_grid, grid_map]
  have hker : laplacian_of_gaussian_kernel n domain s u1 u2 zc mn true =
      (maxNormalized (centeredKernel n domain s u1 u2 zc) mn).map
        (List.map (fun v =>
          v / absSum (maxNormalized (centeredKernel n domain s u1 u2 zc) mn))) := by
    unfold laplacian_of_gaussian_kernel
    simp [l1Normalized]
  constructor
  · intro i j hi hj
    rw [hker]
    conv_lhs => rw [hK2, grid_map, cellOf_grid n _ i j hi hj]
    conv_rhs => rw [hK2, cellOf_grid n _ i j hi hj]
  · rw [hker, absSum_map_div _ _ hpos, div_self htot]

/-! Concrete 2×2 instance used to discharge the nonzero-divisor hypotheses:
at `side_length = 2`, `domain = 2`, `s = 1`, `u1 = u2 = 0` all four sampling
points lie on the circle `x² + y² = 8`, so all raw cells equal
`laplacian 2 2 1 0 0`, which is strictly positive. -/

theorem lap2_pos : 0 < laplacian 2 2 1 0 0 := by
  have hg : 0 < gaussian 2 2 1 0 0 := by
    unfold gaussian
    apply div_pos
    · exact Real.rpow_pos_of_pos (Real.exp_pos 1) _
    · apply Real.rpow_pos_of_pos
      positivity
  unfold laplacian
  have h6 : ((((2:ℝ) - 0) ^ 2) + (((2:ℝ) - 0) ^ 2)) / (1:ℝ) ^ 2 - 2 = 6 := by norm_num
  rw [h6]
  have h := mul_pos hg (by norm_num : (0:ℝ) < 6)
  calc (0:ℝ) < gaussian 2 2 1 0 0 * 6 := h
    _ = gaussian 2 2 1 0 0 * 6 / 1 ^ 2 := by norm_num

theorem raw2_cells (i j : ℕ) (hi : i < 2) (hj : j < 2) :
    rawCell 2 2 1 0 0 i j = laplacian 2 2 1 0 0 := by
  interval_cases i <;> interval_cases j <;>
    · unfold rawCell
      apply laplacian_radial
      norm_num

theorem raw2_list : rawKernelList 2 2 1 0 0 =
    [[laplacian 2 2 1 0 0, laplacian 2 2 1 0 0],
     [laplacian 2 2 1 0 0, laplacian 2 2 1 0 0]] := by
  unfold rawKernelList
  simp [List.range_succ, raw2_cells 0 0 (by norm_num) (by norm_num),
    raw2_cells 0 1 (by norm_num) (by norm_num),
    raw2_cells 1 0 (by norm_num) (by norm_num),
    raw2_cells 1 1 (by norm_num) (by norm_num)]

theorem maxAbs_const2 : maxAbs [[laplacian 2 2 1 0 0, laplacian 2 2 1 0 0],
    [laplacian 2 2 1 0 0, laplacian 2 2 1 0 0]] = |laplacian 2 2 1 0 0| := by
  unfold maxAbs
  simp [max_self, max_eq_right (abs_nonneg (laplacian 2 2 1 0 0))]

theorem absSum_const2 : absSum [[laplacian 2 2 1 0 0, laplacian 2 2 1 0 0],
    [laplacian 2 2 1 0 0, laplacian 2 2 1 0 0]] = 4 * |laplacian 2 2 1 0 0| := by
  unfold absSum
  simp
  ring

theorem centered2_eq : centeredKernel 2 2 1 0 0 false =
    [[laplacian 2 2 1 0 0, laplacian 2 2 1 0 0],
     [laplacian 2 2 1 0 0, laplacian 2 2 1 0 0]] := by
  simp [centeredKernel]
  exact raw2_list

theorem maxAbs2_ne : maxAbs (centeredKernel 2 2 1 0 0 false) ≠ 0 := by
  rw [centered2_eq, maxAbs_const2]
  exact abs_ne_zero.mpr (ne_of_gt lap2_pos)

theorem absSum2_ne : absSum (maxNormalized (centeredKernel 2 2 1 0 0 false) false) ≠ 0 := by
  have h : maxNormalized (centeredKernel 2 2 1 0 0 false) false =
      centeredKernel 2 2 1 0 0 false := by
    simp [maxNormalized]
  rw [h, centered2_eq, absSum_const2]
  have := abs_pos.mpr (ne_of_gt lap2_pos)
  positivity

/-- Witness for C5 at `side_length = 2`, `domain = 2`, `s = 1`, `u1 = u2 = 0`,
`zero_center = false`, where the maximum absolute cell value is nonzero. -/
theorem max_normalize_spec_witness :
    (∀ i j : ℕ, i < 2 → j < 2 →
      cellOf (laplacian_of_gaussian_kernel 2 2 1 0 0 false true false) i j =
        cellOf (centeredKernel 2 2 1 0 0 false) i j /
          maxAbs (centeredKernel 2 2 1 0 0 false)) ∧
    maxAbs (laplacian_of_gaussian_kernel 2 2 1 0 0 false true false) = 1 :=
  max_normalize_spec 2 2 1 0 0 false (by norm_num) (by norm_num) maxAbs2_ne

/-- Witness for C6 at `side_length = 2`, `domain = 2`, `s = 1`, `u1 = u2 = 0`,
`zero_center = false`, `max_normalize = false`, where the absolute sum is nonzero. -/
theorem l1_normalize_spec_witness :
    (∀ i j : ℕ, i < 2 → j < 2 →
      cellOf (laplacian_of_gaussian_kernel 2 2 1 0 0 false false true) i j =
        cellOf (maxNormalized (centeredKernel 2 2 1 0 0 false) false) i j /
          absSum (maxNormalized (centeredKernel 2 2 1 0 0 false) false)) ∧
    absSum (laplacian_of_gaussian_kernel 2 2 1 0 0 false false true) = 1 :=
  l1_normalize_spec 2 2 1 0 0 false false (by norm_num) (by norm_num) absSum2_ne

/-! Error behaviour of the fallible embedding. -/

/-- At `s = 1`, `u1 = u2 = 0`, every sampling point on the circle `x² + y² = 2`
yields the laplacian value 0 (the bracket `(x² + y²)/s² - 2` vanishes), and the
fallible evaluator succeeds there. -/
theorem laplacianE_ring2 (x y : ℝ) (h : x ^ 2 + y ^ 2 = 2) :
    laplacianE x y 1 0 0 = some 0 := by
  unfold laplacianE gaussianE
  have hD : ((2 * Real.pi) ^ 2) ^ ((1 : ℝ) / 2) ≠ 0 := by
    have h2 : (0:ℝ) < ((2 * Real.pi) ^ 2) ^ ((1 : ℝ) / 2) := by
      apply Real.rpow_pos_of_pos
      positivity
    exact ne_of_gt h2
  simp only [sub_zero, h, pydiv]
  norm_num [hD]

/-- At `side_length = 2`, `domain = 1`, `s = 1`, `u1 = u2 = 0` both sampling
rows succeed and consist entirely of zeros. -/
theorem rawRowE_two (i : ℕ) (hi : i < 2) : rawRowE 2 1 1 0 0 i = some [0, 0] := by
  have e1 : laplacianE (-1 : ℝ) 1 1 0 0 = some 0 := laplacianE_ring2 (-1) 1 (by norm_num)
  have e2 : laplacianE (1 : ℝ) 1 1 0 0 = some 0 := laplacianE_ring2 1 1 (by norm_num)
  have e3 : laplacianE (-1 : ℝ) (-1) 1 0 0 = some 0 := laplacianE_ring2 (-1) (-1) (by norm_num)
  have e4 : laplacianE (1 : ℝ) (-1) 1 0 0 = some 0 := laplacianE_ring2 1 (-1) (by norm_num)
  interval_cases i <;>
  · unfold rawRowE
    norm_num [pydiv, List.range_succ, List.mapM.loop, e1, e2, e3, e4]

/-- C7 counterexample: at the degenerate input `s = 0` the reference Gaussian
evaluator does not return any value at all — the first division already raises
(in the embedding: `none`) — contradicting the claim that the functions still
return, carrying non-finite values. -/
theorem gaussianE_s0_counterexample :
    gaussianE 0 0 0 0 0 = none ∧ ∀ r : ℝ, gaussianE 0 0 0 0 0 ≠ some r := by
  have h : gaussianE 0 0 0 0 0 = none := by
    unfold gaussianE
    simp [pydiv]
  exact ⟨h, fun r hr => by rw [h] at hr; cases hr⟩

/-- C7 amended: on each degenerate input class — `s = 0`, `side_length = 1`,
or `max_normalize` with an all-zero kernel (realised at `side_length = 2`,
`domain = 1`, `s = 1`, `u1 = u2 = 0`, whose raw cells are all zero) — the
reference implementation aborts with a division-by-zero error (`none`); it
neither returns non-finite values nor surfaces an explicit domain error. -/
theorem degenerate_inputs_raise :
    (∀ x y u1 u2 : ℝ, gaussianE x y 0 u1 u2 = none) ∧
    (∀ (domain s u1 u2 : ℝ) (zc mn l1 : Bool),
      laplacian_of_gaussian_kernelE 1 domain s u1 u2 zc mn l1 = none) ∧
    laplacian_of_gaussian_kernelE 2 1 1 0 0 false true false = none := by
  refine ⟨?_, ?_, ?_⟩
  · intro x y u1 u2
    unfold gaussianE
    simp [pydiv]
  · intro domain s u1 u2 zc mn l1
    unfold laplacian_of_gaussian_kernelE rawRowE
    simp only [List.range_succ]
    simp [pydiv, List.mapM.loop]
  · unfold laplacian_of_gaussian_kernelE
    norm_num [pydiv, cellSum, maxAbs, List.range_succ, List.mapM.loop,
      rawRowE_two 0 (by norm_num), rawRowE_two 1 (by norm_num)]

/-- C10: for `side_length = 0` the builder never returns an empty kernel: the
sampling loops run zero times and the accumulated mean `0` is then divided by
`side_length² = 0`, reaching the division-by-zero error branch regardless of
the three flag settings. -/
theorem kernelE_side0 (domain s u1 u2 : ℝ) (zc mn l1 : Bool) :
    laplacian_of_gaussian_kernelE 0 domain s u1 u2 zc mn l1 = none := by
  unfold laplacian_of_gaussian_kernelE
  simp [pydiv, cellSum]

/-! Tie-breaking of the minimum-tracking reduction in the parameter search. -/

/-- If no candidate in the list scores strictly below the incumbent minimum,
the fold leaves the state unchanged. -/
theorem findRef_fold_no_improve (f : ℕ × ℕ → ℝ) (l : List (ℕ × ℕ))
    (st : ℝ × Option (ℕ × ℕ)) (h : ∀ c ∈ l, st.1 ≤ f c) :
    l.foldl (findRefStep f) st = st := by
  induction l with
  | nil => rfl
  | cons c t ih =>
    have hstep : findRefStep f st c = st := by
      unfold findRefStep
      rw [if_neg (not_lt.mpr (h c (List.mem_cons_self c t)))]
    rw [List.foldl_cons, hstep]
    exact ih (fun c2 hc2 => h c2 (List.mem_cons_of_mem c hc2))

/-- The running minimum never drops to a value `m` that is strictly below the
initial minimum and every score in the list. -/
theorem findRef_fold_min_lt (f : ℕ × ℕ → ℝ) (l : List (ℕ × ℕ)) (m : ℝ) :
    ∀ st : ℝ × Option (ℕ × ℕ), m < st.1 → (∀ c ∈ l, m < f c) →
      m < (l.foldl (findRefStep f) st).1 := by
  induction l with
  | nil => exact fun st hst _ => hst
  | cons c t ih =>
    intro st hst hl
    rw [List.foldl_cons]
    refine ih (findRefStep f st c) ?_ (fun c2 hc2 => hl c2 (List.mem_cons_of_mem c hc2))
    unfold findRefStep
    by_cases hc : f c < st.1
    · rw [if_pos hc]
      exact hl c (List.mem_cons_self c t)
    · rw [if_neg hc]
      exact hst

/-- C9 amended: in the strict less-than minimum-tracking reduction of
`find_reference` (the fold of `findRefStep` over the candidate list, as in
`find_reference` itself with `f = refScore search` over `searchPairs search`),
whenever several candidates achieve the equal minimal score (strictly below the
initial minimum), the reported minimizing candidate is the tied candidate
evaluated FIRST: with `c` the first candidate attaining the minimum (all
earlier candidates score strictly higher, all later ones no lower), the fold
returns `(f c, some c)`. -/
theorem find_ref_first_min (f : ℕ × ℕ → ℝ) (init : ℝ × Option (ℕ × ℕ))
    (l1 l2 : List (ℕ × ℕ)) (c : ℕ × ℕ)
    (hbefore : ∀ c2 ∈ l1, f c < f c2) (hafter : ∀ c2 ∈ l2, f c ≤ f c2)
    (hinit : f c < init.1) :
    (l1 ++ c :: l2).foldl (findRefStep f) init = (f c, some c) := by
  rw [List.foldl_append, List.foldl_cons]
  have h1 : f c < (l1.foldl (findRefStep f) init).1 :=
    findRef_fold_min_lt f l1 (f c) init hinit hbefore
  have hstep : findRefStep f (l1.foldl (findRefStep f) init) c = (f c, some c) := by
    rw [show findRefStep f (l1.foldl (findRefStep f) init) c =
        if f c < (l1.foldl (findRefStep f) init).1 then (f c, some c)
        else l1.foldl (findRefStep f) init from rfl]
    rw [if_pos h1]
  rw [hstep]
  exact findRef_fold_no_improve f l2 (f c, some c) hafter

/-- Witness for the amended C9: scores `2, 1, 1` over three candidates — the
two tied minimal candidates resolve to the first of them, `(0, 1)`. -/
theorem find_ref_first_min_witness :
    ([((0:ℕ), (0:ℕ))] ++ ((0:ℕ), (1:ℕ)) :: [((0:ℕ), (2:ℕ))]).foldl
        (findRefStep (fun c => if c = ((0:ℕ), (0:ℕ)) then (2:ℝ) else 1)) (100000, none) =
      (1, some ((0:ℕ), (1:ℕ))) := by
  have h := find_ref_first_min (fun c => if c = ((0:ℕ), (0:ℕ)) then (2:ℝ) else 1)
    (100000, none) [((0:ℕ), (0:ℕ))] [((0:ℕ), (2:ℕ))] ((0:ℕ), (1:ℕ))
    (by
      intro c2 hc2
      simp only [List.mem_singleton] at hc2
      subst hc2
      norm_num)
    (by
      intro c2 hc2
      simp only [List.mem_singleton] at hc2
      subst hc2
      norm_num)
    (by norm_num)
  simpa using h

/-- C9 counterexample: under the source's strict less-than comparison, two tied
candidates resolve to the FIRST evaluated one, `(0, 0)`, not the last — refuting
the claim that ties resolve to whichever candidate is evaluated last. -/
theorem find_ref_tie_counterexample :
    (([((0:ℕ), (0:ℕ)), ((0:ℕ), (1:ℕ))]).foldl
        (findRefStep (fun _ => (1:ℝ))) (100000, none)).2 = some ((0:ℕ), (0:ℕ)) ∧
      some ((0:ℕ), (0:ℕ)) ≠ some ((0:ℕ), (1:ℕ)) := by
  constructor
  · norm_num [findRefStep, List.foldl_cons]
  · intro hcontra
    cases Option.some.inj hcontra
